import Mathlib

/-!
Verification of the segmentation and clip-cutting logic of the Slicer
repository (main.py, cutter.py, crop_sub.py, en_crop_sub.py).

External components (the webrtcvad voice-activity model, the numpy
floating-point RMS statistics, MoviePy audio extraction and the external
encoder) enter the model as inputs or as abstract trace events: the
per-frame VAD flags are a `List Bool`, the per-frame RMS values and their
rolling standard deviation are rational-valued sequences (the filter
logic consumes them only through order comparisons), and subprocess
invocations become elements of an event trace.  Millisecond timestamps,
which are Python ints in the source, are modelled as `Int`; frame
indices and the non-negative integer parameters as `Nat`.
-/

namespace Slicer

/-- The `adjusted` list built by `vad_with_music_filter` (main.py lines
103-111): a frame keeps its VAD flag unless the flag is set but the frame
looks like music, i.e. its RMS is at least `rms_mean_thresh` while the
rolling standard deviation of the RMS stays strictly below
`rms_std_thresh`; in that case the flag is cleared.  `i` is the absolute
index of the first frame of the remaining list. -/
def adjusted_flags (rms_mean_thresh rms_std_thresh : ℚ) (rms rms_std : Nat → ℚ) :
    Nat → List Bool → List Bool
  | _, [] => []
  | i, flag :: rest =>
    (if flag then
      (if rms_mean_thresh ≤ rms i ∧ rms_std i < rms_std_thresh then false else true)
     else false) :: adjusted_flags rms_mean_thresh rms_std_thresh rms rms_std (i + 1) rest

/-- The "collect segments with padding" loop of `vad_with_music_filter`
(main.py lines 113-138).  `i` is the index of the next frame to consume,
`start` the index of the first frame of the currently open segment (if
any), `silence` the running count of consecutive non-speech frames, and
`total` the total number of frames (`frames` in the source).  Segments
are emitted in order instead of being accumulated by `append`. -/
def collect_go (frame_ms pad_frames min_segment_ms total : Nat) :
    Nat → Option Nat → Nat → List Bool → List (Int × Int)
  | _, none, _, [] => []
  | _, some s0, _, [] =>
    let seg_start : Int := (s0 : Int) * (frame_ms : Int)
    let seg_end : Int := (total : Int) * (frame_ms : Int)
    if (min_segment_ms : Int) ≤ seg_end - seg_start then [(seg_start, seg_end)] else []
  | i, start, silence, val :: rest =>
    if val then
      collect_go frame_ms pad_frames min_segment_ms total (i + 1) (some (start.getD i)) 0 rest
    else
      match start with
      | none => collect_go frame_ms pad_frames min_segment_ms total (i + 1) none silence rest
      | some s0 =>
        let silence2 := silence + 1
        if pad_frames < silence2 then
          let seg_start : Int := (s0 : Int) * (frame_ms : Int)
          let seg_end : Int := ((i : Int) - (silence2 : Int) + 1) * (frame_ms : Int)
          (if (min_segment_ms : Int) ≤ seg_end - seg_start then [(seg_start, seg_end)]
           else []) ++
            collect_go frame_ms pad_frames min_segment_ms total (i + 1) none 0 rest
        else
          collect_go frame_ms pad_frames min_segment_ms total (i + 1) (some s0) silence2 rest

/-- The merge-and-pad step: run `collect_go` over the whole adjusted flag
list, starting with no open segment. -/
def collect_segments (frame_ms pad_frames min_segment_ms : Nat)
    (adjusted : List Bool) : List (Int × Int) :=
  collect_go frame_ms pad_frames min_segment_ms adjusted.length 0 none 0 adjusted

/-- The `while` loop of the "split long segments" step of
`vad_with_music_filter` (main.py lines 147-151): starting from `t`, emit
pieces of length `max_segment_ms` while more than `max_segment_ms`
remains, then the final piece `(t, e)`.  The source loop does not
terminate when `max_segment_ms = 0` (and `t + max_segment_ms < e`), so
the guard carries the positivity condition; for `0 < max_segment_ms` the
function follows the source step by step. -/
def split_loop (max_segment_ms : Nat) (e : Int) (t : Int) : List (Int × Int) :=
  if h : 0 < max_segment_ms ∧ t + (max_segment_ms : Int) < e then
    (t, t + (max_segment_ms : Int)) ::
      split_loop max_segment_ms e (t + (max_segment_ms : Int))
  else
    [(t, e)]
termination_by (e - t).toNat
decreasing_by
  simp_wf
  omega

/-- The "split long segments" step of `vad_with_music_filter` (main.py
lines 140-151): segments of length at most `max_segment_ms` are kept,
longer ones are replaced by the pieces of `split_loop`. -/
def split_long (max_segment_ms : Nat) (segments : List (Int × Int)) : List (Int × Int) :=
  (segments.map (fun p =>
    if p.2 - p.1 ≤ (max_segment_ms : Int) then [p]
    else split_loop max_segment_ms p.2 p.1)).flatten

/-- `vad_with_music_filter` (main.py lines 78-153) downstream of the
external VAD model and of the floating-point RMS statistics: given the
per-frame VAD flags `is_speech`, the per-frame RMS values `rms` and
their rolling one-second-window standard deviation `rms_std`, apply the
music-rejection adjustment, the merge-and-pad collection (with
`pad_frames = padding_ms / frame_ms`, the floor of the source's
`int(padding_ms / frame_ms)`) and the long-segment split. -/
def vad_with_music_filter_post (frame_ms padding_ms min_segment_ms max_segment_ms : Nat)
    (rms_mean_thresh rms_std_thresh : ℚ) (rms rms_std : Nat → ℚ)
    (is_speech : List Bool) : List (Int × Int) :=
  let adjusted := adjusted_flags rms_mean_thresh rms_std_thresh rms rms_std 0 is_speech
  let pad_frames := padding_ms / frame_ms
  split_long max_segment_ms (collect_segments frame_ms pad_frames min_segment_ms adjusted)

/-- `frames_from_audio` (main.py lines 43-56): zero-pad the signal to a
multiple of `frame_size = sr * frame_ms / 1000` (the floor of the
source's `int(sr * frame_ms / 1000)`) when needed, then cut it into
consecutive frames of `frame_size` samples.  Only the float slices are
modelled; the parallel int16 byte string handed to the external VAD
carries the same slicing. -/
def frames_from_audio (samples : List ℚ) (sr : Nat) (frame_ms : Nat) : List (List ℚ) :=
  let frame_size := sr * frame_ms / 1000
  let pad := samples.length % frame_size
  let padded :=
    if pad ≠ 0 then samples ++ List.replicate (frame_size - pad) (0 : ℚ) else samples
  let n_frames := padded.length / frame_size
  (List.range n_frames).map (fun i => (padded.drop (i * frame_size)).take frame_size)

/-- Externally visible steps of the main.py pipeline: writing the
temporary WAV file via MoviePy, running the VAD and its post-processing,
and one invocation of the external encoder per cut (with the start and
end of the cut in seconds). -/
inductive PipelineEvent
  | extract_audio_ev : PipelineEvent
  | vad_ev : PipelineEvent
  | encoder_ev : ℚ × ℚ → PipelineEvent
deriving DecidableEq

/-- `ffmpeg_cut` (main.py lines 156-178 and, with the identical body,
cutter.py lines 12-34): the encoder subprocess runs unless
`end_s <= start_s + 0.001`, in which case the function returns without
running any command. -/
def ffmpeg_cut_events (start_s end_s : ℚ) : List PipelineEvent :=
  if end_s ≤ start_s + 1 / 1000 then []
  else [PipelineEvent.encoder_ev (start_s, end_s)]

/-- `cut_video` (main.py lines 181-189): one `ffmpeg_cut` call per
segment, with the millisecond endpoints converted to seconds. -/
def cut_video_events (segments : List (Int × Int)) : List PipelineEvent :=
  (segments.map (fun p => ffmpeg_cut_events ((p.1 : ℚ) / 1000) ((p.2 : ℚ) / 1000))).flatten

/-- `main` (main.py lines 192-219): extract the audio, run the detector
and its post-processing with the parameters of the source call site, and
cut every resulting segment (no cut when no speech was detected). -/
def main_events (is_speech : List Bool) (rms rms_std : Nat → ℚ) : List PipelineEvent :=
  let segments :=
    vad_with_music_filter_post 30 1200 300 180000 (1 / 100) (1 / 500) rms rms_std is_speech
  PipelineEvent.extract_audio_ev :: PipelineEvent.vad_ev ::
    (if segments.isEmpty then [] else cut_video_events segments)

/-- The video filter of `convert_vertical` (crop_sub.py lines 18-20),
written in the source as two adjacent string literals. -/
def vertical_filter : String :=
  "scale=720:1280:force_original_aspect_ratio=decrease," ++
  "pad=720:1280:(ow-iw)/2:(oh-ih)/2"

/-- The command list built by `convert_vertical` (crop_sub.py lines 14-30). -/
def convert_vertical_cmd (video_path output_path : String) : List String :=
  ["ffmpeg", "-y", "-hide_banner", "-loglevel", "error", "-i", video_path,
   "-vf", vertical_filter,
   "-c:v", "libx264", "-preset", "veryfast", "-crf", "23",
   "-c:a", "aac", "-b:a", "160k", "-ac", "2", "-ar", "48000",
   "-movflags", "+faststart", output_path]

/-- The single-quote character, written through its code point. -/
def squote : String := String.mk [Char.ofNat 39]

/-- The `style` string of `convert_vertical_with_subs` (en_crop_sub.py
lines 32-42), written in the source as adjacent string literals. -/
def sub_style : String :=
  "Alignment=2,Fontsize=22,PrimaryColour=&HFFFFFF&,OutlineColour=&H000000&," ++
  "BackColour=&H000000&,BorderStyle=1,Outline=4,Shadow=0,MarginV=40"

/-- The subtitles element of the filter chain of
`convert_vertical_with_subs` (en_crop_sub.py line 47), with the
backslashes of the subtitle path replaced by forward slashes (line 30). -/
def subtitles_filter (srt_path : String) : String :=
  "subtitles=" ++ squote ++ srt_path.replace "\\" "/" ++ ":force_style=" ++
    sub_style ++ squote

/-- The command list built by `convert_vertical_with_subs` (en_crop_sub.py
lines 44-64).  The source assembles the same filter string from the
scale literal, the pad literal (with its trailing comma) and the
subtitles f-string. -/
def convert_vertical_with_subs_cmd (video_path output_path srt_path : String) :
    List String :=
  let vf := vertical_filter ++ "," ++ subtitles_filter srt_path
  ["ffmpeg", "-y", "-hide_banner", "-loglevel", "error", "-i", video_path,
   "-vf", vf,
   "-c:v", "libx264", "-preset", "veryfast", "-crf", "23",
   "-c:a", "aac", "-b:a", "160k", "-ac", "2", "-ar", "48000",
   "-movflags", "+faststart", output_path]

/-- Modelled from the spec: the external encoder (not part of this
repository) interprets `scale=W:H:force_original_aspect_ratio=decrease`
as scaling the input of size `in_w` by `in_h` to the largest frame that
fits within `W` by `H` while preserving the input aspect ratio. -/
def scale_fit_decrease (target_w target_h in_w in_h : ℚ) : ℚ × ℚ :=
  if in_h * target_w ≤ in_w * target_h then (target_w, in_h * target_w / in_w)
  else (in_w * target_h / in_h, target_h)

/-- Modelled from the spec: the external encoder's
`pad=W:H:(ow-iw)/2:(oh-ih)/2` filter declares an output frame of exactly
`W` by `H`, whatever the size of the frame being padded. -/
def pad_center_dims (target_w target_h w h : ℚ) : ℚ × ℚ := (target_w, target_h)

/-- Modelled from the spec: the offsets `((ow-iw)/2, (oh-ih)/2)` of the
pad filter, which centre the scaled frame in the output frame. -/
def pad_center_offsets (target_w target_h w h : ℚ) : ℚ × ℚ :=
  ((target_w - w) / 2, (target_h - h) / 2)

/-- The pieces `l` exactly tile the interval from `s` to `e`, in order:
the first piece starts at `s`, each piece starts where the previous one
ends, and the last piece ends at `e`. -/
def SplitTiling (s e : Int) (l : List (Int × Int)) : Prop :=
  l.head?.map Prod.fst = some s ∧ (l.getLast?).map Prod.snd = some e ∧
  List.Chain' (fun p q => p.2 = q.1) l

/-! ### Generic list helpers -/

theorem drop_eq_cons_getD {l : List Bool} {i : Nat} {v : Bool} {r : List Bool}
    (h : l.drop i = v :: r) : l.getD i false = v := by
  have h1 : l[i]? = some v := by
    have h2 : (l.drop i)[0]? = l[i + 0]? := List.getElem?_drop l i 0
    rw [h] at h2
    simpa using h2.symm
  simp [List.getD_eq_getElem?_getD, h1]

theorem drop_eq_cons_drop {l : List Bool} {i : Nat} {v : Bool} {r : List Bool}
    (h : l.drop i = v :: r) : l.drop (i + 1) = r := by
  have h2 : l.drop (i + 1) = (l.drop i).drop 1 := by
    rw [List.drop_drop]
  rw [h2, h]
  rfl

theorem drop_eq_cons_lt {l : List Bool} {i : Nat} {v : Bool} {r : List Bool}
    (h : l.drop i = v :: r) : i < l.length := by
  have h2 := congrArg List.length h
  simp [List.length_drop] at h2
  omega

theorem flatten_map_singleton {α β : Type} (l : List α) (f : α → List β) (g : α → β)
    (h : ∀ x ∈ l, f x = [g x]) : (l.map f).flatten = l.map g := by
  induction l with
  | nil => rfl
  | cons a t ih =>
    simp only [List.map_cons, List.flatten_cons, h a (by simp)]
    rw [ih (fun x hx => h x (by simp [hx]))]
    rfl

/-! ### The long-segment split loop -/

theorem split_loop_eq (m : Nat) (e t : Int) :
    split_loop m e t =
      if 0 < m ∧ t + (m : Int) < e then
        (t, t + (m : Int)) :: split_loop m e (t + (m : Int))
      else [(t, e)] := by
  rw [split_loop]
  simp

/-- Everything the claims need about one run of the splitting `while`
loop, proved together by induction on the distance still to cover. -/
theorem split_loop_spec (m : Nat) (hm : 0 < m) : ∀ (n : Nat) (e t : Int),
    (e - t).toNat ≤ n →
    (split_loop m e t).head?.map Prod.fst = some t ∧
    ((split_loop m e t).getLast?).map Prod.snd = some e ∧
    List.Chain' (fun p q : Int × Int => p.2 = q.1) (split_loop m e t) ∧
    (∀ p ∈ split_loop m e t,
      t ≤ p.1 ∧ p.2 ≤ e ∧ p.2 - p.1 ≤ (m : Int) ∧
      (t < e → p.1 < p.2) ∧
      (∀ d : Int, d ∣ t → d ∣ e → d ∣ (m : Int) → d ∣ p.1 ∧ d ∣ p.2)) ∧
    List.Pairwise (fun p q : Int × Int => p.2 ≤ q.1) (split_loop m e t) := by
  intro n
  induction n with
  | zero =>
    intro e t hn
    rw [split_loop_eq]
    have hng : ¬(0 < m ∧ t + (m : Int) < e) := by
      intro hc
      omega
    rw [if_neg hng]
    refine ⟨rfl, rfl, List.chain'_singleton _, ?_, List.pairwise_singleton _ _⟩
    intro p hp
    rw [List.mem_singleton] at hp
    subst hp
    refine ⟨le_refl _, le_refl _, by omega, by omega, ?_⟩
    intro d hdt hde _
    exact ⟨hdt, hde⟩
  | succ n ih =>
    intro e t hn
    rw [split_loop_eq]
    by_cases hc : 0 < m ∧ t + (m : Int) < e
    · rw [if_pos hc]
      obtain ⟨ihh, ihl, ihc, ihb, ihp⟩ := ih e (t + (m : Int)) (by omega)
      cases hsl : split_loop m e (t + (m : Int)) with
      | nil =>
        rw [hsl] at ihh
        simp at ihh
      | cons q0 rest =>
        rw [hsl] at ihh ihl ihc ihb ihp
        have hq0 : q0.1 = t + (m : Int) := by simpa using ihh
        refine ⟨rfl, ?_, ?_, ?_, ?_⟩
        · rw [List.getLast?_cons_cons]
          exact ihl
        · rw [List.chain'_cons]
          exact ⟨hq0.symm, ihc⟩
        · intro p hp
          rw [List.mem_cons] at hp
          rcases hp with hp | hp
          · subst hp
            exact ⟨le_refl _, le_of_lt hc.2, by omega, by omega,
              fun d hdt hde hdm => ⟨hdt, dvd_add hdt hdm⟩⟩
          · obtain ⟨hb1, hb2, hb3, hb4, hb5⟩ := ihb p hp
            exact ⟨by omega, hb2, hb3, fun _ => hb4 hc.2,
              fun d hdt hde hdm => hb5 d (dvd_add hdt hdm) hde hdm⟩
        · rw [List.pairwise_cons]
          refine ⟨?_, ihp⟩
          intro q hq
          have := (ihb q hq).1
          simpa using this
    · rw [if_neg hc]
      refine ⟨rfl, rfl, List.chain'_singleton _, ?_, List.pairwise_singleton _ _⟩
      intro p hp
      rw [List.mem_singleton] at hp
      subst hp
      refine ⟨le_refl _, le_refl _, by omega, by omega, ?_⟩
      intro d hdt hde _
      exact ⟨hdt, hde⟩

/-! ### Step equations for the merge-and-pad loop -/

theorem collect_go_nil_none (fm pad minSeg total i silence : Nat) :
    collect_go fm pad minSeg total i none silence [] = [] := rfl

theorem collect_go_nil_some (fm pad minSeg total i s0 silence : Nat) :
    collect_go fm pad minSeg total i (some s0) silence [] =
      if (minSeg : Int) ≤ (total : Int) * (fm : Int) - (s0 : Int) * (fm : Int)
      then [((s0 : Int) * (fm : Int), (total : Int) * (fm : Int))] else [] := rfl

/-- Filtering an optionally emitted segment by the minimum-duration test
is the same as emitting it under the (always satisfied) zero threshold
and filtering afterwards. -/
theorem min_ite_filter (minSeg : Nat) (a b : Int) :
    (if (minSeg : Int) ≤ b - a then [(a, b)] else []) =
      List.filter (fun p => (minSeg : Int) ≤ p.2 - p.1)
        (if ((0 : Nat) : Int) ≤ b - a then [(a, b)] else []) := by
  by_cases hmin : (minSeg : Int) ≤ b - a
  · have h0 : ((0 : Nat) : Int) ≤ b - a := by
      have h1 : (0 : Int) ≤ (minSeg : Int) := Int.ofNat_nonneg _
      omega
    rw [if_pos hmin, if_pos h0]
    simp only [List.filter_cons, List.filter_nil]
    rw [if_pos (decide_eq_true hmin)]
  · rw [if_neg hmin]
    by_cases h0 : ((0 : Nat) : Int) ≤ b - a
    · rw [if_pos h0]
      simp only [List.filter_cons, List.filter_nil]
      rw [if_neg (by simpa using hmin)]
    · rw [if_neg h0]
      rfl

theorem collect_go_true (fm pad minSeg total i silence : Nat) (start : Option Nat)
    (rest : List Bool) :
    collect_go fm pad minSeg total i start silence (true :: rest) =
      collect_go fm pad minSeg total (i + 1) (some (start.getD i)) 0 rest := by
  cases start with
  | none => simp only [collect_go, if_true]
  | some s0 => simp only [collect_go, if_true]

theorem collect_go_false_none (fm pad minSeg total i silence : Nat) (rest : List Bool) :
    collect_go fm pad minSeg total i none silence (false :: rest) =
      collect_go fm pad minSeg total (i + 1) none silence rest := by
  simp only [collect_go, Bool.false_eq_true, if_false]

theorem collect_go_false_some (fm pad minSeg total i s0 silence : Nat) (rest : List Bool) :
    collect_go fm pad minSeg total i (some s0) silence (false :: rest) =
      if pad < silence + 1 then
        (if (minSeg : Int) ≤
            ((i : Int) - ((silence + 1 : Nat) : Int) + 1) * (fm : Int) -
              (s0 : Int) * (fm : Int)
         then [((s0 : Int) * (fm : Int),
                ((i : Int) - ((silence + 1 : Nat) : Int) + 1) * (fm : Int))]
         else []) ++ collect_go fm pad minSeg total (i + 1) none 0 rest
      else collect_go fm pad minSeg total (i + 1) (some s0) (silence + 1) rest := by
  simp only [collect_go, Bool.false_eq_true, if_false]

/-- Every segment emitted by the merge-and-pad loop passed the
minimum-duration check, and both of its endpoints are multiples of the
frame length. -/
theorem collect_go_min_dvd (fm pad minSeg total : Nat) :
    ∀ (rest : List Bool) (i : Nat) (start : Option Nat) (silence : Nat),
      ∀ p ∈ collect_go fm pad minSeg total i start silence rest,
        (minSeg : Int) ≤ p.2 - p.1 ∧ (fm : Int) ∣ p.1 ∧ (fm : Int) ∣ p.2 := by
  intro rest
  induction rest with
  | nil =>
    intro i start silence p hp
    cases start with
    | none => simp [collect_go_nil_none] at hp
    | some s0 =>
      rw [collect_go_nil_some] at hp
      by_cases hkeep : (minSeg : Int) ≤ (total : Int) * (fm : Int) - (s0 : Int) * (fm : Int)
      · rw [if_pos hkeep, List.mem_singleton] at hp
        subst hp
        exact ⟨hkeep, dvd_mul_left _ _, dvd_mul_left _ _⟩
      · rw [if_neg hkeep] at hp
        simp at hp
  | cons val rest2 ih =>
    intro i start silence p hp
    cases val with
    | true =>
      rw [collect_go_true] at hp
      exact ih _ _ _ p hp
    | false =>
      cases start with
      | none =>
        rw [collect_go_false_none] at hp
        exact ih _ _ _ p hp
      | some s0 =>
        rw [collect_go_false_some] at hp
        by_cases hclose : pad < silence + 1
        · rw [if_pos hclose, List.mem_append] at hp
          rcases hp with hp | hp
          · by_cases hkeep : (minSeg : Int) ≤
                ((i : Int) - ((silence + 1 : Nat) : Int) + 1) * (fm : Int) -
                  (s0 : Int) * (fm : Int)
            · rw [if_pos hkeep, List.mem_singleton] at hp
              subst hp
              exact ⟨hkeep, dvd_mul_left _ _, dvd_mul_left _ _⟩
            · rw [if_neg hkeep] at hp
              simp at hp
          · exact ih _ _ _ p hp
        · rw [if_neg hclose] at hp
          exact ih _ _ _ p hp

/-- The minimum-duration threshold only filters the emitted segments; it
does not influence which segments the merge-and-pad loop forms. -/
theorem collect_go_min_filter (fm pad minSeg total : Nat) :
    ∀ (rest : List Bool) (i : Nat) (start : Option Nat) (silence : Nat),
      collect_go fm pad minSeg total i start silence rest =
        (collect_go fm pad 0 total i start silence rest).filter
          (fun p => (minSeg : Int) ≤ p.2 - p.1) := by
  intro rest
  induction rest with
  | nil =>
    intro i start silence
    cases start with
    | none => rfl
    | some s0 =>
      rw [collect_go_nil_some, collect_go_nil_some]
      exact min_ite_filter minSeg _ _
  | cons val rest2 ih =>
    intro i start silence
    cases val with
    | true =>
      rw [collect_go_true, collect_go_true]
      exact ih _ _ _
    | false =>
      cases start with
      | none =>
        rw [collect_go_false_none, collect_go_false_none]
        exact ih _ _ _
      | some s0 =>
        rw [collect_go_false_some, collect_go_false_some]
        by_cases hclose : pad < silence + 1
        · rw [if_pos hclose, if_pos hclose, List.filter_append]
          rw [ih _ _ _]
          congr 1
          exact min_ite_filter minSeg _ _
        · rw [if_neg hclose, if_neg hclose]
          exact ih _ _ _

/-- Ordering and bounds of the segments emitted by the merge-and-pad
loop: given the loop invariant (the open segment started before the
frames already consumed), the emitted list is pairwise ordered, starts
no earlier than any lower bound `lo` on the open segment and on the
frames still to come, each segment is non-degenerate, and everything
ends by the end of the audio. -/
theorem collect_go_bounds (fm pad minSeg total : Nat) (hfm : 0 < fm) :
    ∀ (rest : List Bool) (i : Nat) (start : Option Nat) (silence : Nat),
      i + rest.length = total →
      (∀ s0, start = some s0 → s0 + silence < i) →
      ∀ lo : Int,
        (start = none → lo ≤ (i : Int)) →
        (∀ s0, start = some s0 → lo ≤ (s0 : Int)) →
        List.Pairwise (fun p q : Int × Int => p.2 ≤ q.1)
          (collect_go fm pad minSeg total i start silence rest) ∧
        ∀ p ∈ collect_go fm pad minSeg total i start silence rest,
          lo * (fm : Int) ≤ p.1 ∧ p.1 < p.2 ∧ p.2 ≤ (total : Int) * (fm : Int) := by
  have hfm0 : (0 : Int) ≤ (fm : Int) := Int.ofNat_nonneg _
  have hfmp : (0 : Int) < (fm : Int) := by exact_mod_cast hfm
  intro rest
  induction rest with
  | nil =>
    intro i start silence htot hinv lo hlo1 hlo2
    cases start with
    | none =>
      rw [collect_go_nil_none]
      exact ⟨List.Pairwise.nil, by simp⟩
    | some s0 =>
      rw [collect_go_nil_some]
      by_cases hkeep : (minSeg : Int) ≤ (total : Int) * (fm : Int) - (s0 : Int) * (fm : Int)
      · rw [if_pos hkeep]
        refine ⟨List.pairwise_singleton _ _, ?_⟩
        intro p hp
        rw [List.mem_singleton] at hp
        subst hp
        have h1 : s0 + silence < i := hinv s0 rfl
        have h2 : i = total := by simpa using htot
        have h3 : (s0 : Int) < (total : Int) := by exact_mod_cast (by omega : s0 < total)
        exact ⟨mul_le_mul_of_nonneg_right (hlo2 s0 rfl) hfm0,
          mul_lt_mul_of_pos_right h3 hfmp, le_refl _⟩
      · rw [if_neg hkeep]
        exact ⟨List.Pairwise.nil, by simp⟩
  | cons val rest2 ih =>
    intro i start silence htot hinv lo hlo1 hlo2
    have htot2 : (i + 1) + rest2.length = total := by
      simp at htot
      omega
    cases val with
    | true =>
      rw [collect_go_true]
      refine ih (i + 1) (some (start.getD i)) 0 htot2 ?_ lo ?_ ?_
      · intro s0 hs0
        cases start with
        | none =>
          simp at hs0
          omega
        | some s1 =>
          simp at hs0
          have := hinv s1 rfl
          omega
      · intro h
        simp at h
      · intro s0 hs0
        cases start with
        | none =>
          simp at hs0
          have := hlo1 rfl
          omega
        | some s1 =>
          simp at hs0
          subst hs0
          exact hlo2 s1 rfl
    | false =>
      cases start with
      | none =>
        rw [collect_go_false_none]
        refine ih (i + 1) none silence htot2 (by simp) lo ?_ (by simp)
        intro _
        have := hlo1 rfl
        push_cast
        omega
      | some s0 =>
        rw [collect_go_false_some]
        have hs0i : s0 + silence < i := hinv s0 rfl
        by_cases hclose : pad < silence + 1
        · rw [if_pos hclose]
          obtain ⟨recPW, recB⟩ :=
            ih (i + 1) none 0 htot2 (by simp) ((i : Int) + 1) (by simp) (by simp)
          have hseg2 : ((i : Int) - ((silence + 1 : Nat) : Int) + 1) * (fm : Int) ≤
              ((i : Int) + 1) * (fm : Int) := by
            refine mul_le_mul_of_nonneg_right ?_ hfm0
            push_cast
            omega
          by_cases hkeep : (minSeg : Int) ≤
              ((i : Int) - ((silence + 1 : Nat) : Int) + 1) * (fm : Int) -
                (s0 : Int) * (fm : Int)
          · rw [if_pos hkeep]
            constructor
            · rw [List.singleton_append, List.pairwise_cons]
              refine ⟨?_, recPW⟩
              intro q hq
              exact le_trans hseg2 (recB q hq).1
            · intro p hp
              rw [List.singleton_append, List.mem_cons] at hp
              rcases hp with hp | hp
              · subst hp
                refine ⟨mul_le_mul_of_nonneg_right (hlo2 s0 rfl) hfm0, ?_, ?_⟩
                · refine mul_lt_mul_of_pos_right ?_ hfmp
                  push_cast
                  omega
                · refine mul_le_mul_of_nonneg_right ?_ hfm0
                  have : i < total := by
                    simp at htot
                    omega
                  push_cast
                  omega
              · obtain ⟨hb1, hb2, hb3⟩ := recB p hp
                refine ⟨le_trans (mul_le_mul_of_nonneg_right ?_ hfm0) hb1, hb2, hb3⟩
                have := hlo2 s0 rfl
                omega
          · rw [if_neg hkeep, List.nil_append]
            refine ⟨recPW, ?_⟩
            intro p hp
            obtain ⟨hb1, hb2, hb3⟩ := recB p hp
            refine ⟨le_trans (mul_le_mul_of_nonneg_right ?_ hfm0) hb1, hb2, hb3⟩
            have := hlo2 s0 rfl
            omega
        · rw [if_neg hclose]
          refine ih (i + 1) (some s0) (silence + 1) htot2 ?_ lo (by simp) ?_
          · intro s1 hs1
            simp at hs1
            omega
          · intro s1 hs1
            simp at hs1
            subst hs1
            exact hlo2 s0 rfl

/-- End times of the segments emitted by the merge-and-pad loop: every
segment either ends at the end of the audio (a segment still open when
the frames ran out) or at the end of a speech frame that is followed by
strictly more than `pad` consecutive non-speech frames. -/
theorem collect_go_ends (fm pad minSeg : Nat) (adj : List Bool) :
    ∀ (rest : List Bool) (i : Nat) (start : Option Nat) (silence : Nat),
      adj.drop i = rest →
      (∀ s0, start = some s0 →
        silence ≤ pad ∧ s0 + silence < i ∧
        (∀ m, i - silence ≤ m → m < i → adj.getD m false = false) ∧
        adj.getD (i - 1 - silence) false = true) →
      ∀ p ∈ collect_go fm pad minSeg adj.length i start silence rest,
        p.2 = (adj.length : Int) * (fm : Int) ∨
        ∃ k : Nat, k + pad + 1 < adj.length ∧ adj.getD k false = true ∧
          (∀ m, k < m → m ≤ k + pad + 1 → adj.getD m false = false) ∧
          p.2 = ((k : Int) + 1) * (fm : Int) := by
  intro rest
  induction rest with
  | nil =>
    intro i start silence hdrop hinv p hp
    cases start with
    | none =>
      rw [collect_go_nil_none] at hp
      simp at hp
    | some s0 =>
      rw [collect_go_nil_some] at hp
      by_cases hkeep : (minSeg : Int) ≤
          (adj.length : Int) * (fm : Int) - (s0 : Int) * (fm : Int)
      · rw [if_pos hkeep, List.mem_singleton] at hp
        subst hp
        exact Or.inl rfl
      · rw [if_neg hkeep] at hp
        simp at hp
  | cons val rest2 ih =>
    intro i start silence hdrop hinv p hp
    have hv : adj.getD i false = val := drop_eq_cons_getD hdrop
    have hd2 : adj.drop (i + 1) = rest2 := drop_eq_cons_drop hdrop
    have hlen : i < adj.length := drop_eq_cons_lt hdrop
    cases val with
    | true =>
      rw [collect_go_true] at hp
      refine ih (i + 1) (some (start.getD i)) 0 hd2 ?_ p hp
      intro s0 hs0
      refine ⟨Nat.zero_le _, ?_, ?_, ?_⟩
      · cases start with
        | none =>
          simp at hs0
          omega
        | some s1 =>
          simp at hs0
          have := hinv s1 rfl
          omega
      · intro m h1 h2
        omega
      · have h3 : (i + 1) - 1 - 0 = i := by omega
        rw [h3]
        exact hv
    | false =>
      cases start with
      | none =>
        rw [collect_go_false_none] at hp
        exact ih (i + 1) none silence hd2 (by simp) p hp
      | some s0 =>
        obtain ⟨hsp, hsi, hfalse, hlast⟩ := hinv s0 rfl
        rw [collect_go_false_some] at hp
        by_cases hclose : pad < silence + 1
        · rw [if_pos hclose, List.mem_append] at hp
          rcases hp with hp | hp
          · by_cases hkeep : (minSeg : Int) ≤
                ((i : Int) - ((silence + 1 : Nat) : Int) + 1) * (fm : Int) -
                  (s0 : Int) * (fm : Int)
            · rw [if_pos hkeep, List.mem_singleton] at hp
              subst hp
              right
              have hsilpad : silence = pad := by omega
              refine ⟨i - 1 - silence, by omega, hlast, ?_, ?_⟩
              · intro m h1 h2
                by_cases hmi : m = i
                · rw [hmi]
                  exact hv
                · exact hfalse m (by omega) (by omega)
              · show ((i : Int) - ((silence + 1 : Nat) : Int) + 1) * (fm : Int) =
                  (((i - 1 - silence : Nat) : Int) + 1) * (fm : Int)
                have h4 : ((i : Int) - ((silence + 1 : Nat) : Int) + 1) =
                    ((i - 1 - silence : Nat) : Int) + 1 := by omega
                rw [h4]
            · rw [if_neg hkeep] at hp
              simp at hp
          · exact ih (i + 1) none 0 hd2 (by simp) p hp
        · rw [if_neg hclose] at hp
          refine ih (i + 1) (some s0) (silence + 1) hd2 ?_ p hp
          intro s1 hs1
          simp at hs1
          subst hs1
          refine ⟨by omega, by omega, ?_, ?_⟩
          · intro m h1 h2
            by_cases hmi : m = i
            · rw [hmi]
              exact hv
            · exact hfalse m (by omega) (by omega)
          · have h3 : (i + 1) - 1 - (silence + 1) = i - 1 - silence := by omega
            rw [h3]
            exact hlast

/-- With a zero minimum-duration threshold, an open segment is always
eventually emitted: its start is the recorded start frame, and it
reaches at least to the last speech frame seen so far. -/
theorem collect_go_open (fm pad total : Nat) :
    ∀ (rest : List Bool) (i s0 silence : Nat),
      i + rest.length = total →
      s0 + silence < i →
      ∃ p ∈ collect_go fm pad 0 total i (some s0) silence rest,
        p.1 = (s0 : Int) * (fm : Int) ∧
        ((i : Int) - (silence : Int)) * (fm : Int) ≤ p.2 := by
  have hfm0 : (0 : Int) ≤ (fm : Int) := Int.ofNat_nonneg _
  intro rest
  induction rest with
  | nil =>
    intro i s0 silence htot hinv
    rw [collect_go_nil_some]
    have hi : i = total := by simpa using htot
    have hkeep : ((0 : Nat) : Int) ≤ (total : Int) * (fm : Int) - (s0 : Int) * (fm : Int) := by
      rw [Nat.cast_zero]
      have h1 : (s0 : Int) * (fm : Int) ≤ (total : Int) * (fm : Int) :=
        mul_le_mul_of_nonneg_right (by exact_mod_cast (by omega : s0 ≤ total)) hfm0
      omega
    rw [if_pos hkeep]
    refine ⟨_, List.mem_singleton_self _, rfl, ?_⟩
    exact mul_le_mul_of_nonneg_right (by push_cast; omega) hfm0
  | cons val rest2 ih =>
    intro i s0 silence htot hinv
    have htot2 : (i + 1) + rest2.length = total := by
      simp at htot
      omega
    cases val with
    | true =>
      rw [collect_go_true]
      simp only [Option.getD_some]
      obtain ⟨p, hmem, hp1, hp2⟩ := ih (i + 1) s0 0 htot2 (by omega)
      refine ⟨p, hmem, hp1, ?_⟩
      refine le_trans (mul_le_mul_of_nonneg_right ?_ hfm0) hp2
      push_cast
      omega
    | false =>
      rw [collect_go_false_some]
      by_cases hclose : pad < silence + 1
      · rw [if_pos hclose]
        have hkeep : ((0 : Nat) : Int) ≤
            ((i : Int) - ((silence + 1 : Nat) : Int) + 1) * (fm : Int) -
              (s0 : Int) * (fm : Int) := by
          rw [Nat.cast_zero]
          have h1 : (s0 : Int) * (fm : Int) ≤
              ((i : Int) - ((silence + 1 : Nat) : Int) + 1) * (fm : Int) :=
            mul_le_mul_of_nonneg_right (by push_cast; omega) hfm0
          omega
        rw [if_pos hkeep, List.singleton_append]
        refine ⟨_, List.mem_cons_self _ _, rfl, ?_⟩
        have h2 : ((i : Int) - ((silence + 1 : Nat) : Int) + 1) =
            (i : Int) - (silence : Int) := by push_cast; ring
        rw [h2]
      · rw [if_neg hclose]
        obtain ⟨p, hmem, hp1, hp2⟩ := ih (i + 1) s0 (silence + 1) htot2 (by omega)
        refine ⟨p, hmem, hp1, ?_⟩
        refine le_trans (le_of_eq ?_) hp2
        push_cast
        ring

/-- With a zero minimum-duration threshold, every speech frame among the
remaining frames is covered by some emitted segment. -/
theorem collect_go_cover (fm pad total : Nat) :
    ∀ (rest : List Bool) (i : Nat) (start : Option Nat) (silence : Nat),
      i + rest.length = total →
      (∀ s0, start = some s0 → s0 + silence < i) →
      ∀ k : Nat, i ≤ k → rest.getD (k - i) false = true →
      ∃ p ∈ collect_go fm pad 0 total i start silence rest,
        p.1 ≤ (k : Int) * (fm : Int) ∧ ((k : Int) + 1) * (fm : Int) ≤ p.2 := by
  have hfm0 : (0 : Int) ≤ (fm : Int) := Int.ofNat_nonneg _
  intro rest
  induction rest with
  | nil =>
    intro i start silence htot hinv k hik hk
    simp at hk
  | cons val rest2 ih =>
    intro i start silence htot hinv k hik hk
    have htot2 : (i + 1) + rest2.length = total := by
      simp at htot
      omega
    by_cases hki : k = i
    · subst hki
      have hval : val = true := by simpa using hk
      subst hval
      rw [collect_go_true]
      obtain ⟨p, hmem, hp1, hp2⟩ :=
        collect_go_open fm pad total rest2 (k + 1) (start.getD k) 0 htot2 (by
          cases start with
          | none => simp
          | some s1 =>
            have := hinv s1 rfl
            simp
            omega)
      refine ⟨p, hmem, ?_, ?_⟩
      · rw [hp1]
        refine mul_le_mul_of_nonneg_right ?_ hfm0
        cases start with
        | none => simp
        | some s1 =>
          have := hinv s1 rfl
          simp
          exact_mod_cast (by omega : s1 ≤ k)
      · refine le_trans (le_of_eq ?_) hp2
        push_cast
        ring
    · have hik2 : i + 1 ≤ k := by omega
      have hk2 : rest2.getD (k - (i + 1)) false = true := by
        have h3 : k - i = (k - (i + 1)) + 1 := by omega
        rw [h3] at hk
        simpa using hk
      cases val with
      | true =>
        rw [collect_go_true]
        refine ih (i + 1) (some (start.getD i)) 0 htot2 ?_ k hik2 hk2
        intro s1 hs1
        cases start with
        | none =>
          simp at hs1
          omega
        | some s2 =>
          simp at hs1
          have := hinv s2 rfl
          omega
      | false =>
        cases start with
        | none =>
          rw [collect_go_false_none]
          exact ih (i + 1) none silence htot2 (by simp) k hik2 hk2
        | some s0 =>
          have hs0i := hinv s0 rfl
          rw [collect_go_false_some]
          by_cases hclose : pad < silence + 1
          · rw [if_pos hclose]
            obtain ⟨p, hmem, hp⟩ := ih (i + 1) none 0 htot2 (by simp) k hik2 hk2
            exact ⟨p, List.mem_append_right _ hmem, hp⟩
          · rw [if_neg hclose]
            refine ih (i + 1) (some s0) (silence + 1) htot2 ?_ k hik2 hk2
            intro s1 hs1
            simp at hs1
            omega

/-! ### Wrappers and split-stage lemmas -/

theorem split_loop_props (m : Nat) (hm : 0 < m) (e t : Int) :
    (split_loop m e t).head?.map Prod.fst = some t ∧
    ((split_loop m e t).getLast?).map Prod.snd = some e ∧
    List.Chain' (fun p q : Int × Int => p.2 = q.1) (split_loop m e t) ∧
    (∀ p ∈ split_loop m e t,
      t ≤ p.1 ∧ p.2 ≤ e ∧ p.2 - p.1 ≤ (m : Int) ∧
      (t < e → p.1 < p.2) ∧
      (∀ d : Int, d ∣ t → d ∣ e → d ∣ (m : Int) → d ∣ p.1 ∧ d ∣ p.2)) ∧
    List.Pairwise (fun p q : Int × Int => p.2 ≤ q.1) (split_loop m e t) :=
  split_loop_spec m hm (e - t).toNat e t (le_refl _)

theorem collect_segments_eq (fm pad minSeg : Nat) (adjusted : List Bool) :
    collect_segments fm pad minSeg adjusted =
      collect_go fm pad minSeg adjusted.length 0 none 0 adjusted := rfl

theorem vad_post_eq (fm padding minSeg maxSeg : Nat) (mT sT : ℚ) (rms rstd : Nat → ℚ)
    (flags : List Bool) :
    vad_with_music_filter_post fm padding minSeg maxSeg mT sT rms rstd flags =
      split_long maxSeg
        (collect_segments fm (padding / fm) minSeg
          (adjusted_flags mT sT rms rstd 0 flags)) := rfl

theorem collect_segments_bounds (fm pad minSeg : Nat) (hfm : 0 < fm) (adj : List Bool) :
    List.Pairwise (fun p q : Int × Int => p.2 ≤ q.1) (collect_segments fm pad minSeg adj) ∧
    ∀ p ∈ collect_segments fm pad minSeg adj,
      0 ≤ p.1 ∧ p.1 < p.2 ∧ p.2 ≤ (adj.length : Int) * (fm : Int) := by
  obtain ⟨hpw, hb⟩ := collect_go_bounds fm pad minSeg adj.length hfm adj 0 none 0
    (by simp) (by intro s0 h; simp at h) 0 (by simp) (by intro s0 h; simp at h)
  refine ⟨hpw, ?_⟩
  intro p hp
  obtain ⟨h1, h2, h3⟩ := hb p hp
  rw [zero_mul] at h1
  exact ⟨h1, h2, h3⟩

theorem mem_split_long {maxSeg : Nat} {segs : List (Int × Int)} {q : Int × Int} :
    q ∈ split_long maxSeg segs ↔
      ∃ p ∈ segs,
        q ∈ if p.2 - p.1 ≤ (maxSeg : Int) then [p] else split_loop maxSeg p.2 p.1 := by
  simp only [split_long, List.mem_flatten, List.mem_map]
  constructor
  · rintro ⟨l, ⟨p, hp, rfl⟩, hq⟩
    exact ⟨p, hp, hq⟩
  · rintro ⟨p, hp, hq⟩
    exact ⟨_, ⟨p, hp, rfl⟩, hq⟩

theorem split_long_dur (maxSeg : Nat) (hmax : 0 < maxSeg) (segs : List (Int × Int)) :
    ∀ q ∈ split_long maxSeg segs, q.2 - q.1 ≤ (maxSeg : Int) := by
  intro q hq
  rw [mem_split_long] at hq
  obtain ⟨p, hp, hq⟩ := hq
  by_cases hc : p.2 - p.1 ≤ (maxSeg : Int)
  · rw [if_pos hc, List.mem_singleton] at hq
    subst hq
    exact hc
  · rw [if_neg hc] at hq
    obtain ⟨_, _, _, hb, _⟩ := split_loop_props maxSeg hmax p.2 p.1
    exact (hb q hq).2.2.1

theorem split_piece_bounds (maxSeg : Nat) (hmax : 0 < maxSeg) (p q : Int × Int)
    (hpp : p.1 < p.2)
    (hq : q ∈ if p.2 - p.1 ≤ (maxSeg : Int) then [p] else split_loop maxSeg p.2 p.1) :
    p.1 ≤ q.1 ∧ q.1 < q.2 ∧ q.2 ≤ p.2 := by
  by_cases hc : p.2 - p.1 ≤ (maxSeg : Int)
  · rw [if_pos hc, List.mem_singleton] at hq
    subst hq
    exact ⟨le_refl _, hpp, le_refl _⟩
  · rw [if_neg hc] at hq
    obtain ⟨_, _, _, hb, _⟩ := split_loop_props maxSeg hmax p.2 p.1
    obtain ⟨h1, h2, _, h4, _⟩ := hb q hq
    exact ⟨h1, h4 hpp, h2⟩

theorem split_long_pairwise (maxSeg : Nat) (hmax : 0 < maxSeg) (segs : List (Int × Int))
    (hPW : List.Pairwise (fun p q : Int × Int => p.2 ≤ q.1) segs)
    (hseg : ∀ p ∈ segs, p.1 < p.2) :
    List.Pairwise (fun p q : Int × Int => p.2 ≤ q.1) (split_long maxSeg segs) := by
  rw [split_long, List.pairwise_flatten]
  constructor
  · intro l hl
    rw [List.mem_map] at hl
    obtain ⟨p, hp, rfl⟩ := hl
    by_cases hc : p.2 - p.1 ≤ (maxSeg : Int)
    · rw [if_pos hc]
      exact List.pairwise_singleton _ _
    · rw [if_neg hc]
      exact (split_loop_props maxSeg hmax p.2 p.1).2.2.2.2
  · rw [List.pairwise_map]
    refine hPW.imp_of_mem ?_
    intro p p2 hp hp2 hrel x hx y hy
    have hb1 := split_piece_bounds maxSeg hmax p x (hseg p hp) hx
    have hb2 := split_piece_bounds maxSeg hmax p2 y (hseg p2 hp2) hy
    calc x.2 ≤ p.2 := hb1.2.2
      _ ≤ p2.1 := hrel
      _ ≤ y.1 := hb2.1

theorem split_long_min_d (maxSeg d : Nat) (hmax : 0 < maxSeg) (hd : 0 < d)
    (hdm : (d : Int) ∣ (maxSeg : Int)) (segs : List (Int × Int))
    (hseg : ∀ p ∈ segs, (d : Int) ∣ p.1 ∧ (d : Int) ∣ p.2 ∧ p.1 < p.2) :
    ∀ q ∈ split_long maxSeg segs, (d : Int) ≤ q.2 - q.1 := by
  intro q hq
  rw [mem_split_long] at hq
  obtain ⟨p, hp, hq⟩ := hq
  obtain ⟨hd1, hd2, hlt⟩ := hseg p hp
  by_cases hc : p.2 - p.1 ≤ (maxSeg : Int)
  · rw [if_pos hc, List.mem_singleton] at hq
    subst hq
    exact Int.le_of_dvd (by omega) (dvd_sub hd2 hd1)
  · rw [if_neg hc] at hq
    obtain ⟨_, _, _, hb, _⟩ := split_loop_props maxSeg hmax p.2 p.1
    obtain ⟨h1, h2, _, h4, h5⟩ := hb q hq
    obtain ⟨hq1, hq2⟩ := h5 (d : Int) hd1 hd2 hdm
    exact Int.le_of_dvd (by have := h4 hlt; omega) (dvd_sub hq2 hq1)

/-! ### Claim theorems -/

/-- C1: for positive `max_segment_ms`, a merged segment longer than
`max_segment_ms` is split by `vad_with_music_filter` into consecutive
pieces that exactly tile it in order, and every segment of the returned
list has duration at most `max_segment_ms`. -/
theorem claim_C1_split (fm padding minSeg maxSeg : Nat) (mT sT : ℚ) (rms rstd : Nat → ℚ)
    (flags : List Bool) (hmax : 0 < maxSeg) :
    (∀ s e : Int, (maxSeg : Int) < e - s →
      SplitTiling s e (split_loop maxSeg e s) ∧
      ∀ q ∈ split_loop maxSeg e s, q.2 - q.1 ≤ (maxSeg : Int)) ∧
    ∀ p ∈ vad_with_music_filter_post fm padding minSeg maxSeg mT sT rms rstd flags,
      p.2 - p.1 ≤ (maxSeg : Int) := by
  constructor
  · intro s e hse
    obtain ⟨h1, h2, h3, h4, _⟩ := split_loop_props maxSeg hmax e s
    exact ⟨⟨h1, h2, h3⟩, fun q hq => (h4 q hq).2.2.1⟩
  · intro p hp
    rw [vad_post_eq] at hp
    exact split_long_dur maxSeg hmax _ p hp

theorem claim_C1_witness :
    (0 : Nat) < 3 ∧ SplitTiling 0 5 (split_loop 3 5 0) :=
  ⟨by decide,
    ((claim_C1_split 1 0 0 3 0 0 (fun _ => 0) (fun _ => 0) [] (by decide)).1 0 5
      (by decide)).1⟩

/-- C2 fails on the code: with frame length 1 ms, padding 0, minimum
segment duration 2 ms and maximum segment duration 3 ms, four speech
frames merge into the segment (0, 4), which the splitting step cuts into
(0, 3) and (3, 4) — and the final returned piece (3, 4) is shorter than
the minimum duration. -/
theorem claim_C2_counterexample :
    ((3 : Int), (4 : Int)) ∈
      vad_with_music_filter_post 1 0 2 3 1 1 (fun _ => 0) (fun _ => 0)
        [true, true, true, true] ∧
    ¬ ((2 : Int) ≤ (4 : Int) - (3 : Int)) := by
  constructor
  · have hadj : adjusted_flags 1 1 (fun _ => 0) (fun _ => 0) 0 [true, true, true, true] =
        [true, true, true, true] := by decide
    have hmerge : collect_segments 1 (0 / 1) 2 [true, true, true, true] =
        [((0 : Int), (4 : Int))] := by decide
    have hs1 : split_loop 3 4 3 = [((3 : Int), (4 : Int))] := by
      rw [split_loop_eq]
      norm_num
    have hs0 : split_loop 3 4 0 = [((0 : Int), (3 : Int)), ((3 : Int), (4 : Int))] := by
      rw [split_loop_eq]
      norm_num [hs1]
    rw [vad_post_eq, hadj, hmerge]
    simp only [split_long, List.map_cons, List.map_nil]
    norm_num [hs0, List.flatten_cons, List.flatten_nil]
  · decide

/-- C2 amended: it is the segments formed by the merge-and-pad step that
all have duration at least `min_segment_ms` (shorter merged segments are
dropped there); a piece produced by the subsequent splitting of an
over-long segment may be shorter. -/
theorem claim_C2_amended (fm pad minSeg : Nat) (adj : List Bool) :
    ∀ p ∈ collect_segments fm pad minSeg adj, (minSeg : Int) ≤ p.2 - p.1 := by
  intro p hp
  exact (collect_go_min_dvd fm pad minSeg adj.length adj 0 none 0 p hp).1

theorem claim_C2_witness :
    ((0 : Int), (4 : Int)) ∈ collect_segments 1 0 2 [true, true, true, true] ∧
    ((2 : Nat) : Int) ≤ ((0 : Int), (4 : Int)).2 - ((0 : Int), (4 : Int)).1 :=
  ⟨by decide,
    claim_C2_amended 1 0 2 [true, true, true, true] ((0 : Int), (4 : Int)) (by decide)⟩

/-- Index-wise description of the adjusted flag list. -/
theorem adjusted_flags_getD (mT sT : ℚ) (rms rstd : Nat → ℚ) :
    ∀ (flags : List Bool) (j i : Nat), i < flags.length →
      (adjusted_flags mT sT rms rstd j flags).getD i false =
        if flags.getD i false then
          (if mT ≤ rms (j + i) ∧ rstd (j + i) < sT then false else true)
        else false := by
  intro flags
  induction flags with
  | nil =>
    intro j i h
    simp at h
  | cons f rest ih =>
    intro j i h
    cases i with
    | zero => simp [adjusted_flags]
    | succ i2 =>
      simp only [adjusted_flags, List.getD_cons_succ]
      have harith : j + 1 + i2 = j + (i2 + 1) := by omega
      have := ih (j + 1) i2 (by simpa using h)
      rw [this, harith]

/-- C3: the music-rejection adjustment, frame by frame: a non-speech
frame stays non-speech, and a speech frame is cleared exactly when its
RMS is at least `rms_mean_thresh` while its rolling standard deviation
stays strictly below `rms_std_thresh`. -/
theorem claim_C3_adjusted (mT sT : ℚ) (rms rstd : Nat → ℚ) (flags : List Bool) (i : Nat)
    (h : i < flags.length) :
    (flags.getD i false = false →
      (adjusted_flags mT sT rms rstd 0 flags).getD i false = false) ∧
    (flags.getD i false = true →
      ((adjusted_flags mT sT rms rstd 0 flags).getD i false = false ↔
        mT ≤ rms i ∧ rstd i < sT)) := by
  have hg := adjusted_flags_getD mT sT rms rstd flags 0 i h
  rw [Nat.zero_add] at hg
  constructor
  · intro hf
    rw [hg, hf]
    simp
  · intro hf
    rw [hg, hf]
    by_cases hc : mT ≤ rms i ∧ rstd i < sT
    · rw [if_pos rfl, if_pos hc]
      simpa using hc
    · rw [if_pos rfl, if_neg hc]
      simpa using hc

theorem claim_C3_witness :
    (0 : Nat) < [true].length ∧
    (([true].getD 0 false = false →
      (adjusted_flags 0 1 (fun _ => 1) (fun _ => 0) 0 [true]).getD 0 false = false) ∧
     ([true].getD 0 false = true →
      ((adjusted_flags 0 1 (fun _ => 1) (fun _ => 0) 0 [true]).getD 0 false = false ↔
        (0 : ℚ) ≤ (fun _ => (1 : ℚ)) 0 ∧ (fun _ => (0 : ℚ)) 0 < 1))) :=
  ⟨by decide, claim_C3_adjusted 0 1 (fun _ => 1) (fun _ => 0) [true] 0 (by decide)⟩

/-- C7: the segmentation post-processing is a pure function of the VAD
flags, the RMS statistics and the parameters. -/
theorem claim_C7_deterministic (fm padding minSeg maxSeg : Nat) (mT sT : ℚ)
    (rms1 rms2 rstd1 rstd2 : Nat → ℚ) (flags1 flags2 : List Bool)
    (hflags : flags1 = flags2) (hrms : ∀ i, rms1 i = rms2 i)
    (hrstd : ∀ i, rstd1 i = rstd2 i) :
    vad_with_music_filter_post fm padding minSeg maxSeg mT sT rms1 rstd1 flags1 =
      vad_with_music_filter_post fm padding minSeg maxSeg mT sT rms2 rstd2 flags2 := by
  subst hflags
  rw [funext hrms, funext hrstd]

theorem claim_C7_witness :
    vad_with_music_filter_post 30 1200 300 180000 (1 / 100) (1 / 500)
        (fun _ => 0) (fun _ => 0) [true] =
      vad_with_music_filter_post 30 1200 300 180000 (1 / 100) (1 / 500)
        (fun _ => 0) (fun _ => 0) [true] :=
  claim_C7_deterministic 30 1200 300 180000 (1 / 100) (1 / 500) _ _ _ _ [true] [true]
    rfl (fun _ => rfl) (fun _ => rfl)

/-- C8: with a positive frame length (and a positive maximum segment
duration, without which the source's splitting loop would not
terminate), the returned list is well formed: segments are
non-degenerate, start at or after time zero, and are pairwise disjoint
in chronological order. -/
theorem claim_C8_wellformed (fm padding minSeg maxSeg : Nat) (mT sT : ℚ)
    (rms rstd : Nat → ℚ) (flags : List Bool) (hfm : 0 < fm) (hmax : 0 < maxSeg) :
    List.Pairwise (fun p q : Int × Int => p.2 ≤ q.1)
      (vad_with_music_filter_post fm padding minSeg maxSeg mT sT rms rstd flags) ∧
    ∀ p ∈ vad_with_music_filter_post fm padding minSeg maxSeg mT sT rms rstd flags,
      0 ≤ p.1 ∧ p.1 < p.2 := by
  obtain ⟨hpw, hb⟩ := collect_segments_bounds fm (padding / fm) minSeg hfm
    (adjusted_flags mT sT rms rstd 0 flags)
  constructor
  · rw [vad_post_eq]
    exact split_long_pairwise maxSeg hmax _ hpw (fun p hp => (hb p hp).2.1)
  · intro q hq
    rw [vad_post_eq, mem_split_long] at hq
    obtain ⟨p, hp, hqp⟩ := hq
    have hbp := hb p hp
    have hpiece := split_piece_bounds maxSeg hmax p q hbp.2.1 hqp
    exact ⟨le_trans hbp.1 hpiece.1, hpiece.2.1⟩

theorem claim_C8_witness :
    (0 : Nat) < 30 ∧ (0 : Nat) < 180000 ∧
    (List.Pairwise (fun p q : Int × Int => p.2 ≤ q.1)
      (vad_with_music_filter_post 30 1200 300 180000 (1 / 100) (1 / 500)
        (fun _ => 0) (fun _ => 0) [true]) ∧
     ∀ p ∈ vad_with_music_filter_post 30 1200 300 180000 (1 / 100) (1 / 500)
        (fun _ => 0) (fun _ => 0) [true], 0 ≤ p.1 ∧ p.1 < p.2) :=
  ⟨by decide, by decide,
    claim_C8_wellformed 30 1200 300 180000 (1 / 100) (1 / 500) (fun _ => 0) (fun _ => 0)
      [true] (by decide) (by decide)⟩

/-- If a merged segment covers speech frame `i`, and the next speech
frame `j` is separated from `i` by at most `pad` non-speech frames, the
same segment also covers `j`. -/
theorem segment_covers_forward (fm pad minSeg : Nat) (adj : List Bool) (hfm : 0 < fm)
    (i j : Nat) (hij : i < j) (hjlen : j < adj.length)
    (hj : adj.getD j false = true)
    (hgap : ∀ m, i < m → m < j → adj.getD m false = false)
    (hpad : j - i - 1 ≤ pad) :
    ∀ p ∈ collect_segments fm pad minSeg adj,
      p.1 ≤ (i : Int) * (fm : Int) → ((i : Int) + 1) * (fm : Int) ≤ p.2 →
      p.1 ≤ (j : Int) * (fm : Int) ∧ ((j : Int) + 1) * (fm : Int) ≤ p.2 := by
  have hfm0 : (0 : Int) ≤ (fm : Int) := Int.ofNat_nonneg _
  have hfmp : (0 : Int) < (fm : Int) := by exact_mod_cast hfm
  intro p hp hp1 hp2
  have hends := collect_go_ends fm pad minSeg adj adj 0 none 0 (List.drop_zero adj)
    (by intro s0 h; simp at h) p hp
  constructor
  · exact le_trans hp1
      (mul_le_mul_of_nonneg_right (by exact_mod_cast le_of_lt hij) hfm0)
  · rcases hends with hend | ⟨k, hk1, hk2, hk3, hk4⟩
    · rw [hend]
      exact mul_le_mul_of_nonneg_right (by push_cast; omega) hfm0
    · have hik : i ≤ k := by
        rw [hk4] at hp2
        have h5 : ((i : Int) + 1) ≤ ((k : Int) + 1) := le_of_mul_le_mul_right hp2 hfmp
        omega
      by_cases hkj : j ≤ k
      · rw [hk4]
        exact mul_le_mul_of_nonneg_right (by push_cast; omega) hfm0
      · exfalso
        by_cases hki : k = i
        · subst hki
          have h6 := hk3 j (by omega) (by omega)
          rw [hj] at h6
          simp at h6
        · have h6 := hgap k (by omega) (by omega)
          rw [hk2] at h6
          simp at h6

/-- C4: in the merge-and-pad step with `pad_frames = padding_ms /
frame_ms` non-speech frames of tolerance, every emitted segment ends
either at the end of the audio (still-open segment) or right after a
speech frame followed by strictly more than `pad_frames` non-speech
frames; and two speech frames separated by a run of at most `pad_frames`
non-speech frames belong to the same segments. -/
theorem claim_C4_merge_pad (fm padding minSeg : Nat) (adj : List Bool) (hfm : 0 < fm) :
    (∀ p ∈ collect_segments fm (padding / fm) minSeg adj,
      p.2 = (adj.length : Int) * (fm : Int) ∨
      ∃ k : Nat, k + (padding / fm) + 1 < adj.length ∧ adj.getD k false = true ∧
        (∀ m, k < m → m ≤ k + (padding / fm) + 1 → adj.getD m false = false) ∧
        p.2 = ((k : Int) + 1) * (fm : Int)) ∧
    (∀ i j : Nat, i < j → j < adj.length →
      adj.getD i false = true → adj.getD j false = true →
      (∀ m, i < m → m < j → adj.getD m false = false) →
      j - i - 1 ≤ padding / fm →
      ∀ p ∈ collect_segments fm (padding / fm) minSeg adj,
        ((p.1 ≤ (i : Int) * (fm : Int) ∧ ((i : Int) + 1) * (fm : Int) ≤ p.2) ↔
         (p.1 ≤ (j : Int) * (fm : Int) ∧ ((j : Int) + 1) * (fm : Int) ≤ p.2))) := by
  have hfmp : (0 : Int) < (fm : Int) := by exact_mod_cast hfm
  constructor
  · intro p hp
    exact collect_go_ends fm (padding / fm) minSeg adj adj 0 none 0 (List.drop_zero adj)
      (by intro s0 h; simp at h) p hp
  · intro i j hij hjlen hi hj hgap hpad p hp
    constructor
    · rintro ⟨h1, h2⟩
      exact segment_covers_forward fm (padding / fm) minSeg adj hfm i j hij hjlen hj
        hgap hpad p hp h1 h2
    · rintro ⟨h1, h2⟩
      have hp0 : p ∈ collect_segments fm (padding / fm) 0 adj := by
        rw [collect_segments_eq,
          collect_go_min_filter fm (padding / fm) minSeg adj.length adj 0 none 0] at hp
        exact (List.mem_filter.1 hp).1
      obtain ⟨q, hq, hq1, hq2⟩ := collect_go_cover fm (padding / fm) adj.length adj 0
        none 0 (by simp) (by intro s0 h; simp at h) i (Nat.zero_le i) (by simpa using hi)
      have hqmem : q ∈ collect_segments fm (padding / fm) 0 adj := hq
      have hqj := segment_covers_forward fm (padding / fm) 0 adj hfm i j hij hjlen hj
        hgap hpad q hqmem hq1 hq2
      obtain ⟨hPW, hb⟩ := collect_segments_bounds fm (padding / fm) 0 hfm adj
      obtain ⟨np, hnp, hnpe⟩ := List.getElem_of_mem hp0
      obtain ⟨nq, hnq, hnqe⟩ := List.getElem_of_mem hqmem
      rw [List.pairwise_iff_getElem] at hPW
      have hjj : ((j : Int)) * (fm : Int) < ((j : Int) + 1) * (fm : Int) :=
        mul_lt_mul_of_pos_right (by omega) hfmp
      have hpq : p = q := by
        rcases Nat.lt_trichotomy np nq with hlt | heq | hgt
        · exfalso
          have h7 := hPW np nq hnp hnq hlt
          rw [hnpe, hnqe] at h7
          have h8 : ((j : Int) + 1) * (fm : Int) ≤ (j : Int) * (fm : Int) :=
            le_trans h2 (le_trans h7 hqj.1)
          omega
        · subst heq
          exact hnpe.symm.trans hnqe
        · exfalso
          have h7 := hPW nq np hnq hnp hgt
          rw [hnpe, hnqe] at h7
          have h8 : ((j : Int) + 1) * (fm : Int) ≤ (j : Int) * (fm : Int) :=
            le_trans hqj.2 (le_trans h7 h1)
          omega
      rw [hpq]
      exact ⟨hq1, hq2⟩

theorem claim_C4_witness :
    (0 : Nat) < 10 ∧
    (∀ p ∈ collect_segments 10 (15 / 10) 0 [true, false, true],
      ((p.1 ≤ ((0 : Nat) : Int) * ((10 : Nat) : Int) ∧
          (((0 : Nat) : Int) + 1) * ((10 : Nat) : Int) ≤ p.2) ↔
       (p.1 ≤ ((2 : Nat) : Int) * ((10 : Nat) : Int) ∧
          (((2 : Nat) : Int) + 1) * ((10 : Nat) : Int) ≤ p.2))) :=
  ⟨by decide,
    (claim_C4_merge_pad 10 15 0 [true, false, true] (by decide)).2 0 2 (by decide)
      (by decide) (by decide) (by decide)
      (by
        intro m h1 h2
        have hm : m = 1 := by omega
        rw [hm]
        rfl)
      (by decide)⟩

/-- With the parameters of `main` (30 ms frames, 30 | 180000), every
returned segment lasts at least one frame, i.e. at least 30 ms. -/
theorem main_segments_min30 (rms rstd : Nat → ℚ) (flags : List Bool) :
    ∀ q ∈ vad_with_music_filter_post 30 1200 300 180000 (1 / 100) (1 / 500) rms rstd flags,
      (30 : Int) ≤ q.2 - q.1 := by
  intro q hq
  rw [vad_post_eq] at hq
  refine split_long_min_d 180000 30 (by norm_num) (by norm_num) (by norm_num) _ ?_ q hq
  intro p hp
  have h1 := collect_go_min_dvd 30 (1200 / 30) 300 _ _ 0 none 0 p hp
  have h2 := (collect_segments_bounds 30 (1200 / 30) 300 (by norm_num) _).2 p hp
  exact ⟨h1.2.1, h1.2.2, h2.2.1⟩

/-- C5: the pipeline of `main` is, in order, audio extraction, the
detector with its post-processing, and — when the segment list is not
empty — one encoder invocation per time range, in the order of the
ranges. -/
theorem claim_C5_pipeline (rms rstd : Nat → ℚ) (flags : List Bool)
    (hne : vad_with_music_filter_post 30 1200 300 180000 (1 / 100) (1 / 500)
      rms rstd flags ≠ []) :
    main_events flags rms rstd =
      PipelineEvent.extract_audio_ev :: PipelineEvent.vad_ev ::
        (vad_with_music_filter_post 30 1200 300 180000 (1 / 100) (1 / 500)
            rms rstd flags).map
          (fun p => PipelineEvent.encoder_ev ((p.1 : ℚ) / 1000, (p.2 : ℚ) / 1000)) := by
  have h30 := main_segments_min30 rms rstd flags
  have hie : (vad_with_music_filter_post 30 1200 300 180000 (1 / 100) (1 / 500)
      rms rstd flags).isEmpty = false := by
    cases hseg2 : vad_with_music_filter_post 30 1200 300 180000 (1 / 100) (1 / 500)
        rms rstd flags with
    | nil => exact absurd hseg2 hne
    | cons a t => rfl
  simp only [main_events, hie, Bool.false_eq_true, if_false]
  congr 1
  congr 1
  rw [cut_video_events]
  refine flatten_map_singleton _ _ _ ?_
  intro p hp
  rw [ffmpeg_cut_events, if_neg ?_]
  rw [not_le]
  have h1 : ((p.1 : ℚ) + 1) < (p.2 : ℚ) := by
    have h2 := h30 p hp
    have h3 : p.1 + 1 < p.2 := by omega
    exact_mod_cast h3
  rw [div_add_div_same]
  rw [div_lt_div_iff_of_pos_right]
  · exact h1
  · norm_num

theorem claim_C5_witness :
    vad_with_music_filter_post 30 1200 300 180000 (1 / 100) (1 / 500)
        (fun _ => 0) (fun _ => 0)
        [true, true, true, true, true, true, true, true, true, true] ≠ [] ∧
    main_events [true, true, true, true, true, true, true, true, true, true]
        (fun _ => 0) (fun _ => 0) =
      PipelineEvent.extract_audio_ev :: PipelineEvent.vad_ev ::
        (vad_with_music_filter_post 30 1200 300 180000 (1 / 100) (1 / 500)
            (fun _ => 0) (fun _ => 0)
            [true, true, true, true, true, true, true, true, true, true]).map
          (fun p => PipelineEvent.encoder_ev ((p.1 : ℚ) / 1000, (p.2 : ℚ) / 1000)) := by
  have hadj : adjusted_flags (1 / 100) (1 / 500) (fun _ => (0 : ℚ)) (fun _ => (0 : ℚ)) 0
      [true, true, true, true, true, true, true, true, true, true] =
      [true, true, true, true, true, true, true, true, true, true] := by
    norm_num [adjusted_flags]
  have hmerge : collect_segments 30 (1200 / 30) 300
      [true, true, true, true, true, true, true, true, true, true] =
      [((0 : Int), (300 : Int))] := by decide
  have hsl : split_long 180000 [((0 : Int), (300 : Int))] = [((0 : Int), (300 : Int))] := by
    simp only [split_long, List.map_cons, List.map_nil, List.flatten_cons,
      List.flatten_nil, List.append_nil]
    norm_num
  have hne : vad_with_music_filter_post 30 1200 300 180000 (1 / 100) (1 / 500)
      (fun _ => 0) (fun _ => 0)
      [true, true, true, true, true, true, true, true, true, true] ≠ [] := by
    rw [vad_post_eq, hadj, hmerge, hsl]
    simp
  exact ⟨hne, claim_C5_pipeline (fun _ => 0) (fun _ => 0) _ hne⟩

/-- C9: `ffmpeg_cut` runs the encoder subprocess exactly when
`end_s > start_s + 0.001`; `cut_video` calls it once per segment, so a
segment whose end is at most one millisecond after its start never
launches the encoder. -/
theorem claim_C9_cut_guard :
    (∀ s e : ℚ, ffmpeg_cut_events s e ≠ [] ↔ s + 1 / 1000 < e) ∧
    (∀ segs : List (Int × Int),
      cut_video_events segs =
        (segs.map (fun p =>
          ffmpeg_cut_events ((p.1 : ℚ) / 1000) ((p.2 : ℚ) / 1000))).flatten) ∧
    (∀ p : Int × Int, p.2 ≤ p.1 + 1 →
      ffmpeg_cut_events ((p.1 : ℚ) / 1000) ((p.2 : ℚ) / 1000) = []) := by
  refine ⟨?_, fun segs => rfl, ?_⟩
  · intro s e
    rw [ffmpeg_cut_events]
    by_cases hc : e ≤ s + 1 / 1000
    · rw [if_pos hc]
      constructor
      · intro h
        exact absurd rfl h
      · intro h
        exact absurd h (not_lt.2 hc)
    · rw [if_neg hc]
      constructor
      · intro _
        exact not_le.1 hc
      · intro _
        simp
  · intro p hple
    have h1 : (p.2 : ℚ) / 1000 ≤ (p.1 : ℚ) / 1000 + 1 / 1000 := by
      rw [div_add_div_same]
      have h2 : ((p.2 : Int) : ℚ) ≤ ((p.1 : Int) : ℚ) + 1 := by exact_mod_cast hple
      rw [div_le_div_iff_of_pos_right]
      · exact h2
      · norm_num
    rw [ffmpeg_cut_events, if_pos h1]

theorem claim_C9_witness :
    ((5 : Int), (5 : Int)).2 ≤ ((5 : Int), (5 : Int)).1 + 1 ∧
    ffmpeg_cut_events ((((5 : Int), (5 : Int)).1 : ℚ) / 1000)
      ((((5 : Int), (5 : Int)).2 : ℚ) / 1000) = [] :=
  ⟨by decide, claim_C9_cut_guard.2.2 ((5 : Int), (5 : Int)) (by decide)⟩

/-- C6: both encoder command builders place the scale-and-pad filter
chain as the `-vf` argument, and (in the modelled filter semantics) the
scaling fits the input within 720x1280 preserving its aspect ratio while
the centred pad declares an output of exactly 720x1280 — a 9:16 frame —
whatever the input dimensions. -/
theorem claim_C6_vertical :
    (∀ v o srt : String,
      (convert_vertical_cmd v o)[7]? = some "-vf" ∧
      (convert_vertical_cmd v o)[8]? = some vertical_filter ∧
      (convert_vertical_with_subs_cmd v o srt)[7]? = some "-vf" ∧
      (convert_vertical_with_subs_cmd v o srt)[8]? =
        some (vertical_filter ++ "," ++ subtitles_filter srt)) ∧
    (∀ in_w in_h : ℚ, 0 < in_w → 0 < in_h →
      (scale_fit_decrease 720 1280 in_w in_h).1 ≤ 720 ∧
      (scale_fit_decrease 720 1280 in_w in_h).2 ≤ 1280 ∧
      (scale_fit_decrease 720 1280 in_w in_h).1 * in_h =
        (scale_fit_decrease 720 1280 in_w in_h).2 * in_w ∧
      pad_center_dims 720 1280 (scale_fit_decrease 720 1280 in_w in_h).1
        (scale_fit_decrease 720 1280 in_w in_h).2 = (720, 1280) ∧
      pad_center_offsets 720 1280 (scale_fit_decrease 720 1280 in_w in_h).1
        (scale_fit_decrease 720 1280 in_w in_h).2 =
        ((720 - (scale_fit_decrease 720 1280 in_w in_h).1) / 2,
         (1280 - (scale_fit_decrease 720 1280 in_w in_h).2) / 2)) := by
  constructor
  · intro v o srt
    exact ⟨rfl, rfl, rfl, rfl⟩
  · intro in_w in_h hw hh
    by_cases hc : in_h * 720 ≤ in_w * 1280
    · simp only [scale_fit_decrease, if_pos hc]
      refine ⟨le_refl _, ?_, ?_, rfl, rfl⟩
      · rw [div_le_iff hw]
        linarith
      · rw [div_mul_cancel₀ _ (ne_of_gt hw)]
        ring
    · simp only [scale_fit_decrease, if_neg hc]
      push_neg at hc
      refine ⟨?_, le_refl _, ?_, rfl, rfl⟩
      · rw [div_le_iff hh]
        linarith
      · rw [div_mul_cancel₀ _ (ne_of_gt hh)]
        ring

theorem claim_C6_witness :
    (0 : ℚ) < 1920 ∧ (0 : ℚ) < 1080 ∧
    ((scale_fit_decrease 720 1280 1920 1080).1 ≤ 720 ∧
     (scale_fit_decrease 720 1280 1920 1080).2 ≤ 1280 ∧
     (scale_fit_decrease 720 1280 1920 1080).1 * 1080 =
       (scale_fit_decrease 720 1280 1920 1080).2 * 1920 ∧
     pad_center_dims 720 1280 (scale_fit_decrease 720 1280 1920 1080).1
       (scale_fit_decrease 720 1280 1920 1080).2 = (720, 1280) ∧
     pad_center_offsets 720 1280 (scale_fit_decrease 720 1280 1920 1080).1
       (scale_fit_decrease 720 1280 1920 1080).2 =
       ((720 - (scale_fit_decrease 720 1280 1920 1080).1) / 2,
        (1280 - (scale_fit_decrease 720 1280 1920 1080).2) / 2)) :=
  ⟨by norm_num, by norm_num, claim_C6_vertical.2 1920 1080 (by norm_num) (by norm_num)⟩

/-- The zero padding used by `frames_from_audio` rounds the length up to
the next multiple of the frame size. -/
theorem padded_ceil (len fs : Nat) (hfs : 0 < fs) :
    (if len % fs ≠ 0 then len + (fs - len % fs) else len) =
      ((len + fs - 1) / fs) * fs := by
  have hdm := Nat.div_add_mod len fs
  have hmlt : len % fs < fs := Nat.mod_lt _ hfs
  by_cases hmod : len % fs = 0
  · rw [if_neg (by simpa using hmod)]
    have hdvd := Nat.dvd_of_mod_eq_zero hmod
    obtain ⟨q, hq2⟩ := hdvd
    subst hq2
    have h1 : fs * q + fs - 1 = fs * q + (fs - 1) := by omega
    have h2 : (fs * q + (fs - 1)) / fs = q + (fs - 1) / fs := Nat.mul_add_div hfs q (fs - 1)
    have h3 : (fs - 1) / fs = 0 := Nat.div_eq_of_lt (by omega)
    rw [h1, h2, h3]
    ring
  · rw [if_pos hmod]
    have h1 : len + fs - 1 = fs * (len / fs + 1) + (len % fs - 1) := by
      have h2 : fs * (len / fs + 1) = fs * (len / fs) + fs := by ring
      omega
    have h2 : (fs * (len / fs + 1) + (len % fs - 1)) / fs =
        (len / fs + 1) + (len % fs - 1) / fs := Nat.mul_add_div hfs _ _
    have h3 : (len % fs - 1) / fs = 0 := Nat.div_eq_of_lt (by omega)
    rw [h1, h2, h3]
    have h4 : (len / fs + 1 + 0) * fs = fs * (len / fs) + fs := by ring
    omega

/-- Cutting a list whose length is an exact multiple of `fs` into
`fs`-sized chunks yields chunks of the right length whose concatenation
is the original list. -/
theorem range_chunks (fs : Nat) (hfs : 0 < fs) :
    ∀ (k : Nat) (l : List ℚ), l.length = k * fs →
      (∀ f ∈ (List.range k).map (fun i => (l.drop (i * fs)).take fs), f.length = fs) ∧
      ((List.range k).map (fun i => (l.drop (i * fs)).take fs)).flatten = l := by
  intro k
  induction k with
  | zero =>
    intro l hl
    simp at hl
    constructor
    · intro f hf
      simp at hf
    · simp [hl]
  | succ k2 ih =>
    intro l hl
    have hfs_le : fs ≤ l.length := by
      have h1 : (k2 + 1) * fs = k2 * fs + fs := by ring
      omega
    have hdl : (l.drop fs).length = k2 * fs := by
      rw [List.length_drop]
      have h1 : (k2 + 1) * fs = k2 * fs + fs := by ring
      omega
    obtain ⟨ihlen, ihflat⟩ := ih (l.drop fs) hdl
    have hcomp : (List.range k2).map ((fun i => (l.drop (i * fs)).take fs) ∘ Nat.succ) =
        (List.range k2).map (fun i => ((l.drop fs).drop (i * fs)).take fs) := by
      refine List.map_congr_left ?_
      intro i hi
      simp only [Function.comp_apply, Nat.succ_mul]
      rw [List.drop_drop, Nat.add_comm fs (i * fs)]
    constructor
    · intro f hf
      rw [List.range_succ_eq_map, List.map_cons, List.map_map, hcomp, List.mem_cons] at hf
      rcases hf with hf | hf
      · subst hf
        simp only [Nat.zero_mul, List.drop_zero]
        rw [List.length_take]
        omega
      · exact ihlen f hf
    · rw [List.range_succ_eq_map, List.map_cons, List.map_map, hcomp, List.flatten_cons,
        ihflat]
      simp only [Nat.zero_mul, List.drop_zero]
      exact List.take_append_drop fs l

/-- C10: with a positive frame size, `frames_from_audio` zero-pads only
when the sample count is not a multiple of the frame size, and yields
exactly the rounded-up number of frames, each of exactly `frame_size`
samples, whose concatenation is the padded signal. -/
theorem claim_C10_frames (samples : List ℚ) (sr frame_ms : Nat)
    (hfs : 0 < sr * frame_ms / 1000) :
    (frames_from_audio samples sr frame_ms).length =
      (samples.length + sr * frame_ms / 1000 - 1) / (sr * frame_ms / 1000) ∧
    (∀ f ∈ frames_from_audio samples sr frame_ms, f.length = sr * frame_ms / 1000) ∧
    (frames_from_audio samples sr frame_ms).flatten =
      (if samples.length % (sr * frame_ms / 1000) ≠ 0 then
        samples ++ List.replicate
          (sr * frame_ms / 1000 - samples.length % (sr * frame_ms / 1000)) (0 : ℚ)
       else samples) ∧
    (samples.length % (sr * frame_ms / 1000) = 0 →
      (frames_from_audio samples sr frame_ms).flatten = samples) := by
  set fs := sr * frame_ms / 1000 with hfsdef
  set padded := if samples.length % fs ≠ 0 then
      samples ++ List.replicate (fs - samples.length % fs) (0 : ℚ)
    else samples with hpad
  have hplen : padded.length = ((samples.length + fs - 1) / fs) * fs := by
    rw [hpad]
    by_cases hmod : samples.length % fs ≠ 0
    · rw [if_pos hmod, List.length_append, List.length_replicate]
      have h1 := padded_ceil samples.length fs hfs
      rw [if_pos hmod] at h1
      exact h1
    · rw [if_neg hmod]
      have h1 := padded_ceil samples.length fs hfs
      rw [if_neg hmod] at h1
      exact h1
  have hframes : frames_from_audio samples sr frame_ms =
      (List.range (padded.length / fs)).map (fun i => (padded.drop (i * fs)).take fs) :=
    rfl
  have hn : padded.length / fs = (samples.length + fs - 1) / fs := by
    rw [hplen]
    exact Nat.mul_div_cancel _ hfs
  obtain ⟨hlen, hflat⟩ := range_chunks fs hfs (padded.length / fs) padded (by
    rw [hn]
    exact hplen)
  refine ⟨?_, ?_, ?_, ?_⟩
  · rw [hframes, List.length_map, List.length_range, hn]
  · intro f hf
    rw [hframes] at hf
    exact hlen f hf
  · rw [hframes, hflat, hpad]
  · intro hmod
    rw [hframes, hflat, hpad, if_neg (by simpa using hmod)]

theorem claim_C10_witness :
    (0 : Nat) < 1000 * 2 / 1000 ∧
    ((frames_from_audio [1, 2, 3] 1000 2).length =
      ([(1 : ℚ), 2, 3].length + 1000 * 2 / 1000 - 1) / (1000 * 2 / 1000) ∧
     (∀ f ∈ frames_from_audio [1, 2, 3] 1000 2, f.length = 1000 * 2 / 1000) ∧
     (frames_from_audio [1, 2, 3] 1000 2).flatten =
       (if [(1 : ℚ), 2, 3].length % (1000 * 2 / 1000) ≠ 0 then
         [(1 : ℚ), 2, 3] ++ List.replicate
           (1000 * 2 / 1000 - [(1 : ℚ), 2, 3].length % (1000 * 2 / 1000)) (0 : ℚ)
        else [(1 : ℚ), 2, 3]) ∧
     ([(1 : ℚ), 2, 3].length % (1000 * 2 / 1000) = 0 →
       (frames_from_audio [1, 2, 3] 1000 2).flatten = [(1 : ℚ), 2, 3])) :=
  ⟨by decide, claim_C10_frames [1, 2, 3] 1000 2 (by decide)⟩

end Slicer
